import Mathlib

/-!
Verification of `src/config.ts` of ts-loader: configuration-file location
(`findConfigFile`), loading and option merging (`getConfigFile`), version-gated
config parsing (`getConfigParseResult`), and the suffix-appending parse-config
host (`getSuffixAppendingParseConfigHost`).

External collaborators (Node's `path` module, `semver`, and the TypeScript
`sys` host) are modelled explicitly below; the four functions of the source
file are translated directly.
-/

namespace TsLoaderConfig

/-! ## POSIX path model (Node `path` module collaborators) -/

/-- Split a character list at every slash; inverse of `joinSlash` on
slash-free groups.  Models the component decomposition used by Node's
POSIX path functions. -/
def splitSlash : List Char → List (List Char)
  | [] => [[]]
  | c :: rest =>
    if c = '/' then [] :: splitSlash rest
    else
      match splitSlash rest with
      | [] => [[c]]
      | g :: gs => (c :: g) :: gs

/-- Join groups of characters with a slash between consecutive groups. -/
def joinSlash : List (List Char) → List Char
  | [] => []
  | [g] => g
  | g :: gs => g ++ '/' :: joinSlash gs

/-- Nonempty path components of a character list. -/
def compsOf (cs : List Char) : List (List Char) :=
  (splitSlash cs).filter (fun g => !g.isEmpty)

/-- Models `path.isAbsolute` (POSIX): the path starts with a slash. -/
def isAbsolute (p : String) : Bool :=
  p.data.head? = some '/'

/-- Models `path.dirname` (POSIX): drop the last path component; the parent
of a root-level or component-less path is "/" (absolute) or "." (relative). -/
def dirname (p : String) : String :=
  if (compsOf p.data).length ≤ 1 then (if isAbsolute p then "/" else ".")
  else String.mk ((if isAbsolute p then ['/'] else []) ++
    joinSlash (compsOf p.data).dropLast)

/-- Models `path.join(dir, file)` for joining a directory with a file name. -/
def joinPath (dir file : String) : String :=
  if dir.data = [] then file
  else if dir.data = ['.'] then file
  else if dir.data.getLast? = some '/' then String.mk (dir.data ++ file.data)
  else String.mk (dir.data ++ '/' :: file.data)

/-- Models `path.resolve(dir, rel)` (POSIX): concatenate unless `rel` is
absolute, then normalize "." and ".." components. -/
def resolvePath (dir rel : String) : String :=
  let s : List Char := if isAbsolute rel then rel.data else dir.data ++ '/' :: rel.data
  let abs := s.head? = some '/'
  let comps := (splitSlash s).filter (fun g => !g.isEmpty && g ≠ ['.'])
  let norm := comps.foldl (fun acc c =>
    if c = ['.', '.'] then
      match acc.getLast? with
      | some l => if l ≠ ['.', '.'] then acc.dropLast else acc ++ [c]
      | none => if abs then [] else [c]
    else acc ++ [c]) []
  if abs then String.mk ('/' :: joinSlash norm)
  else if norm = [] then "." else String.mk (joinSlash norm)

/-- The suffix of a character list starting at its last dot, if any. -/
def lastDotSuffix : List Char → Option (List Char)
  | [] => none
  | c :: rest =>
    match lastDotSuffix rest with
    | some s => some s
    | none => if c = '.' then some (c :: rest) else none

/-- Models `path.extname`: the extension of the last path component, from its
last dot to the end; empty when there is no dot or the only dot leads. -/
def extname (p : String) : String :=
  match (splitSlash p.data).getLastD [] with
  | [] => ""
  | _ :: rest =>
    match lastDotSuffix rest with
    | some s => String.mk s
    | none => ""

/-- Models `String.prototype.toLowerCase` for ASCII extension strings. -/
def toLowerStr (s : String) : String :=
  String.mk (s.data.map Char.toLower)

/-- Models the regular expression test of config.ts line 99: the reference
starts with one or two dots followed by a slash or backslash. -/
def matchRelativePattern (p : String) : Bool :=
  match p.data with
  | '.' :: '/' :: _ => true
  | '.' :: '\\' :: _ => true
  | '.' :: '.' :: '/' :: _ => true
  | '.' :: '.' :: '\\' :: _ => true
  | _ => false

/-- Measure driving the ancestor walk: zero at a `dirname` fixed point
(filesystem root), otherwise the component count plus two. -/
def pathMeasure (p : String) : Nat :=
  if dirname p = p then 0 else (compsOf p.data).length + 2

/-! ## JavaScript object model -/

/-- Values stored in a JavaScript options object; `undef` is the explicit
`undefined` value (a key can be present with value `undefined`). -/
inductive JSValue where
  | undef : JSValue
  | num : Int → JSValue
  | str : String → JSValue
deriving DecidableEq, Repr

/-- A JavaScript object as an ordered association list of own enumerable
properties; keys are unique in any object built by a literal. -/
abbrev JSObj := List (String × JSValue)

/-- Property lookup: the first entry with the given key. -/
def jsLookup (o : JSObj) (k : String) : Option JSValue :=
  (o.find? (fun e => e.1 == k)).map (fun e => e.2)

/-- First-defined choice on optional values. -/
def jsOr (a b : Option JSValue) : Option JSValue :=
  match a with
  | some v => some v
  | none => b

/-- Models `Object.assign(target, source)` on plain objects: every own key
of `source` overwrites or extends `target`, keeping `target`'s key order and
appending `source`'s new keys in order. -/
def objectAssign (target source : JSObj) : JSObj :=
  target.map (fun e => (e.1, (jsLookup source e.1).getD e.2))
    ++ source.filter (fun e => (jsLookup target e.1).isNone)

/-! ## Data model of config.ts -/

/-- The raw configuration object held in a `ConfigFile` (`config` field). -/
structure TsConfig where
  compilerOptions : JSObj
  files : List String
deriving DecidableEq, Repr

/-- Models the `ConfigFile` interface: raw config plus optional parse error
(the diagnostic is kept abstract as its message text). -/
structure ConfigFile where
  config : TsConfig
  error : Option String
deriving DecidableEq, Repr

/-- The subset of `LoaderOptions` consumed by config.ts.  The two suffix
lists are modelled as the sets of real-file extensions each rule applies to
(the source holds regular expressions matching such files). -/
structure LoaderOptions where
  configFile : String
  compilerOptions : JSObj
  appendTsSuffixTo : List String
  appendTsxSuffixTo : List String
deriving DecidableEq, Repr

/-- The record returned by `getConfigFile` (config.ts lines 68-72). -/
structure GetConfigFileResult where
  configFilePath : Option String
  configFile : ConfigFile
  configFileError : Option String
deriving DecidableEq, Repr

/-! ## findConfigFile (config.ts lines 86-119) -/

/-- The `while (true)` walk of config.ts lines 105-115, embedded by
structural recursion on a fuel bound; `none` means the fuel ran out.
`findConfigFileGo_isSome` proves that with fuel `pathMeasure dir + 1` the
loop always exits through its own `return`/`break`, so the bound is never
the reason the walk stops. -/
def findConfigFileGo (fileExists : String → Bool) (configFile : String) :
    Nat → String → Option (Option String)
  | 0, _ => none
  | Nat.succ n, requestDirPath =>
    let fileName := joinPath requestDirPath configFile
    if fileExists fileName then some (some fileName)
    else
      let parentPath := dirname requestDirPath
      if parentPath = requestDirPath then some none
      else findConfigFileGo fileExists configFile n parentPath

/-- Models `findConfigFile` (config.ts lines 86-119): absolute references
are checked directly, relative references are resolved against the request
directory, and bare names are searched for up the directory tree. -/
def findConfigFile (fileExists : String → Bool)
    (requestDirPath configFile : String) : Option String :=
  if isAbsolute configFile then
    if fileExists configFile then some configFile else none
  else if matchRelativePattern configFile then
    let resolvedPath := resolvePath requestDirPath configFile
    if fileExists resolvedPath then some resolvedPath else none
  else
    (findConfigFileGo fileExists configFile
      (pathMeasure requestDirPath + 1) requestDirPath).getD none

/-- The chain of directories the walk visits: the start directory and its
ancestors up to and including the `dirname` fixed point (filesystem root),
with the same fuel bound as the walk itself. -/
def ancestorDirsGo : Nat → String → List String
  | 0, _ => []
  | Nat.succ n, dir =>
    if dirname dir = dir then [dir] else dir :: ancestorDirsGo n (dirname dir)

/-- The start directory together with all its ancestors up to the root. -/
def ancestorDirs (dir : String) : List String :=
  ancestorDirsGo (pathMeasure dir + 1) dir

/-! ## getConfigFile (config.ts lines 11-73) -/

/-- Models `getConfigFile` (config.ts lines 11-73).  Collaborators become
parameters: `sysFileExists` is `compiler.sys.fileExists`, `readConfigFile p`
is `compiler.readConfigFile(p, compiler.sys.readFile)`, `formatError` is the
`formatErrors(...)[0]` diagnostic-formatting pipeline, `resourcePath` is
`loader.resourcePath`.  Returns the result record together with the list of
messages passed to `log.logInfo`, in order. -/
def getConfigFile
    (sysFileExists : String → Bool)
    (readConfigFile : String → ConfigFile)
    (formatError : String → String)
    (resourcePath : String)
    (loaderOptions : LoaderOptions)
    (compilerCompatible : Bool)
    (compilerDetailsLogMessage : String) :
    GetConfigFileResult × List String :=
  let configFilePath := findConfigFile sysFileExists (dirname resourcePath)
    loaderOptions.configFile
  let state :=
    match configFilePath with
    | some foundPath =>
      let logs := [if compilerCompatible
        then compilerDetailsLogMessage ++ " and " ++ foundPath
        else "ts-loader: Using config file at " ++ foundPath]
      let configFile := readConfigFile foundPath
      (configFile, configFile.error.map formatError, logs)
    | none =>
      (⟨⟨[], []⟩, none⟩, none,
        if compilerCompatible then [compilerDetailsLogMessage] else [])
  let configFile := state.1
  let configFileError := state.2.1
  let logs := state.2.2
  let configFile :=
    if configFileError = none then
      { configFile with config := { configFile.config with
          compilerOptions := objectAssign
            (objectAssign [] configFile.config.compilerOptions)
            loaderOptions.compilerOptions } }
    else configFile
  (⟨configFilePath, configFile, configFileError⟩, logs)

/-! ## The suffix-appending parse-config host (config.ts lines 144-188) -/

/-- The slice of `typescript.System` used by config.ts: `readDirectory`
takes an optional extension filter (`none` models the call with no
`extensions` argument, which lists every file). -/
structure TSSystem where
  useCaseSensitiveFileNames : Bool
  fileExists : String → Bool
  readFile : String → Option String
  readDirectory : String → Option (List String) → List String

/-- The slice of `typescript.ParseConfigHost` used by config.ts (the
trailing `excludes`/`includes`/`depth` arguments are forwarded unchanged by
the source and are elided here). -/
structure ParseConfigHost where
  useCaseSensitiveFileNames : Bool
  fileExists : String → Bool
  readFile : String → Option String
  readDirectory : String → List String → List String

/-- A `typescript.System` used directly as a `ParseConfigHost` (the source
returns `sys` itself; this is how its members are consumed as a host). -/
def TSSystem.toParseConfigHost (sys : TSSystem) : ParseConfigHost where
  useCaseSensitiveFileNames := sys.useCaseSensitiveFileNames
  fileExists := sys.fileExists
  readFile := sys.readFile
  readDirectory := fun rootDir extensions => sys.readDirectory rootDir (some extensions)

/-- Models `mapArg` (config.ts lines 186-188). -/
def mapArg {T U : Type} (toWrap : T → U) (wrapWith : T → T) : T → U :=
  fun x => toWrap (wrapWith x)

/-- Modelled from the spec: `getPossiblyRenamedFilePath` lives in
`src/utils.ts`, which is not part of the covered source.  Per the spec, an
extension-rewrite rule is a pair of a synthetic suffix and the set of real
file extensions it applies to (for example a real ".vue" file is made
discoverable as "name.vue.ts"); the transform appends the rule's suffix to a
matching file name and leaves every other name unchanged. -/
def getPossiblyRenamedFilePath (rawFileName : String)
    (loaderOptions : LoaderOptions) : String :=
  if extname rawFileName ∈ loaderOptions.appendTsSuffixTo then rawFileName ++ ".ts"
  else if extname rawFileName ∈ loaderOptions.appendTsxSuffixTo then rawFileName ++ ".tsx"
  else rawFileName

/-- Models `getSuffixAppendingParseConfigHost` (config.ts lines 144-184):
with no rewrite rules the system itself is returned; otherwise a wrapper
host transforms file names on the way in (`fileExists`, `readFile`) and
performs the two-pass `readDirectory` with the discovered extra
extensions. -/
def getSuffixAppendingParseConfigHost (sys : TSSystem)
    (loaderOptions : LoaderOptions) : ParseConfigHost :=
  if loaderOptions.appendTsSuffixTo.length = 0 ∧
      loaderOptions.appendTsxSuffixTo.length = 0 then
    sys.toParseConfigHost
  else
    { useCaseSensitiveFileNames := sys.useCaseSensitiveFileNames
      fileExists := mapArg sys.fileExists
        (fun rawFileName => getPossiblyRenamedFilePath rawFileName loaderOptions)
      readFile := mapArg sys.readFile
        (fun rawFileName => getPossiblyRenamedFilePath rawFileName loaderOptions)
      readDirectory := fun rootDir extensions =>
        let allFiles := sys.readDirectory rootDir none
        let customExtensions := allFiles.foldl (fun exts fileName =>
          let renamed := getPossiblyRenamedFilePath fileName loaderOptions
          if renamed ≠ fileName ∧
              toLowerStr (extname renamed) ∈ extensions then
            let ext := toLowerStr (extname fileName)
            if ext ≠ "" then exts ++ [ext] else exts
          else exts) []
        (sys.readDirectory rootDir (some (extensions ++ customExtensions))).map
          (fun rawFileName => getPossiblyRenamedFilePath rawFileName loaderOptions) }

/-- The extra extensions of the second `readDirectory` pass, written as a
direct per-file selection (the spec's description of the `reduce`): a file
contributes its own lowercased extension when the rewrite transform changes
its name, the synthetic name's lowercased extension is among the requested
ones, and the file has a nonempty extension. -/
def customExtensionsSpec (sys : TSSystem) (loaderOptions : LoaderOptions)
    (rootDir : String) (extensions : List String) : List String :=
  (sys.readDirectory rootDir none).filterMap (fun fileName =>
    let renamed := getPossiblyRenamedFilePath fileName loaderOptions
    if renamed ≠ fileName ∧ toLowerStr (extname renamed) ∈ extensions ∧
        toLowerStr (extname fileName) ≠ "" then
      some (toLowerStr (extname fileName))
    else none)

/-! ## getConfigParseResult (config.ts lines 121-142) -/

/-- A semantic version, with `semverGte` modelling `semver.gte`. -/
structure SemVer where
  major : Nat
  minor : Nat
  patch : Nat
deriving DecidableEq, Repr

/-- Models `semver.gte`: lexicographic comparison of major, minor, patch. -/
def semverGte (a b : SemVer) : Bool :=
  if a.major ≠ b.major then decide (b.major < a.major)
  else if a.minor ≠ b.minor then decide (b.minor < a.minor)
  else decide (b.patch ≤ a.patch)

/-- The slice of `typescript.ParsedCommandLine` used by config.ts. -/
structure ParsedCommandLine where
  options : JSObj
  fileNames : List String
deriving DecidableEq, Repr

/-- The JavaScript value of the shorthand property `{ configFilePath }`:
the path string, or the explicit `undefined` value when the path is absent. -/
def jsOfPath : Option String → JSValue
  | some p => JSValue.str p
  | none => JSValue.undef

/-- Models `getConfigParseResult` (config.ts lines 121-142):
`parseJsonConfigFileContent` is the host compiler's parsing capability,
passed as a function parameter and fed the (possibly wrapped) parse-config
host; at compiler version 3.5.0 or above the parsed options are re-created
with the `configFilePath` provenance key assigned on top. -/
def getConfigParseResult
    (compilerVersion : SemVer)
    (parseJsonConfigFileContent : TsConfig → ParseConfigHost → String → ParsedCommandLine)
    (sys : TSSystem)
    (configFile : ConfigFile)
    (basePath : String)
    (configFilePath : Option String)
    (loaderOptions : LoaderOptions) : ParsedCommandLine :=
  let configParseResult := parseJsonConfigFileContent configFile.config
    (getSuffixAppendingParseConfigHost sys loaderOptions) basePath
  if semverGte compilerVersion ⟨3, 5, 0⟩ then
    { configParseResult with
        options := objectAssign (objectAssign [] configParseResult.options)
          [("configFilePath", jsOfPath configFilePath)] }
  else configParseResult

/-- The raw (unmerged) file-side compiler options of a load: those read
from the located file, or the empty default when no file was found. -/
def rawFileOptions (readConfigFile : String → ConfigFile) :
    Option String → JSObj
  | some p => (readConfigFile p).config.compilerOptions
  | none => []

/-! ## Concrete example instances used in the worked-example statements -/

/-- A concrete system for the worked examples: a directory holding "a.vue"
and "b.ts"; the extension filter matches a file's lowercased extension, as
`typescript.sys.readDirectory` does. -/
def exSys : TSSystem where
  useCaseSensitiveFileNames := true
  fileExists := fun p => p = "/proj/a.vue" || p = "/proj/b.ts"
  readFile := fun _ => none
  readDirectory := fun _ optExts =>
    match optExts with
    | none => ["a.vue", "b.ts"]
    | some es => (["a.vue", "b.ts"]).filter (fun f => toLowerStr (extname f) ∈ es)

/-- Rewrite rules for the worked examples: real ".vue" files gain a
".vue.ts" synthetic identity; no ".tsx" rule. -/
def exOpts : LoaderOptions :=
  { configFile := "tsconfig.json"
    compilerOptions := []
    appendTsSuffixTo := [".vue"]
    appendTsxSuffixTo := [] }

/-- A concrete filesystem for the locator examples: exactly
"/a/tsconfig.json" and "/zz.json" exist. -/
def exFs : String → Bool :=
  fun p => p = "/a/tsconfig.json" || p = "/zz.json"

/-! ## Lemmas about the path model -/

theorem splitSlash_ne_nil (cs : List Char) : splitSlash cs ≠ [] := by
  induction cs with
  | nil => simp [splitSlash]
  | cons c rest ih =>
    simp only [splitSlash]
    split
    · simp
    · cases h : splitSlash rest with
      | nil => simp
      | cons g gs => simp

theorem no_slash_of_mem_splitSlash (cs g : List Char) (hg : g ∈ splitSlash cs) :
    '/' ∉ g := by
  induction cs generalizing g with
  | nil =>
    simp only [splitSlash, List.mem_singleton] at hg
    subst hg; simp
  | cons c rest ih =>
    simp only [splitSlash] at hg
    by_cases hc : c = '/'
    · rw [if_pos hc] at hg
      rcases List.mem_cons.mp hg with rfl | hmem
      · simp
      · exact ih g hmem
    · rw [if_neg hc] at hg
      cases h : splitSlash rest with
      | nil => exact absurd h (splitSlash_ne_nil rest)
      | cons g0 gs =>
        rw [h] at hg
        rcases List.mem_cons.mp hg with rfl | hmem
        · intro hcontra
          rcases List.mem_cons.mp hcontra with heq | hmem0
          · exact hc heq.symm
          · exact ih g0 (h ▸ List.mem_cons_self g0 gs) hmem0
        · exact ih g (h ▸ List.mem_cons_of_mem g0 hmem)

theorem splitSlash_append_slash (g cs : List Char) (hg : '/' ∉ g) :
    splitSlash (g ++ '/' :: cs) = g :: splitSlash cs := by
  induction g with
  | nil => simp [splitSlash]
  | cons c g' ih =>
    have hc : c ≠ '/' := fun h => hg (h ▸ List.mem_cons_self c g')
    have hg' : '/' ∉ g' := fun h => hg (List.mem_cons_of_mem c h)
    show splitSlash (c :: (g' ++ '/' :: cs)) = _
    simp only [splitSlash, if_neg hc]
    rw [ih hg']

theorem splitSlash_of_no_slash (g : List Char) (hg : '/' ∉ g) :
    splitSlash g = [g] := by
  induction g with
  | nil => rfl
  | cons c g' ih =>
    have hc : c ≠ '/' := fun h => hg (h ▸ List.mem_cons_self c g')
    have hg' : '/' ∉ g' := fun h => hg (List.mem_cons_of_mem c h)
    simp only [splitSlash, if_neg hc, ih hg']

theorem splitSlash_joinSlash (l : List (List Char)) (hne : l ≠ [])
    (hl : ∀ g ∈ l, '/' ∉ g) : splitSlash (joinSlash l) = l := by
  induction l with
  | nil => exact absurd rfl hne
  | cons g l' ih =>
    cases l' with
    | nil =>
      simp only [joinSlash]
      exact splitSlash_of_no_slash g (hl g (List.mem_cons_self g []))
    | cons g2 l'' =>
      have hstep : joinSlash (g :: g2 :: l'') = g ++ '/' :: joinSlash (g2 :: l'') := rfl
      rw [hstep, splitSlash_append_slash g _ (hl g (List.mem_cons_self g _)),
        ih (by simp) (fun x hx => hl x (List.mem_cons_of_mem g hx))]

theorem mem_compsOf (cs g : List Char) (hg : g ∈ compsOf cs) :
    g ≠ [] ∧ '/' ∉ g := by
  rcases List.mem_filter.mp hg with ⟨hmem, hpred⟩
  refine ⟨?_, no_slash_of_mem_splitSlash cs g hmem⟩
  simpa using hpred

theorem compsOf_joinSlash (l : List (List Char)) (hne : l ≠ [])
    (hl : ∀ g ∈ l, g ≠ [] ∧ '/' ∉ g) : compsOf (joinSlash l) = l := by
  unfold compsOf
  rw [splitSlash_joinSlash l hne (fun g hg => (hl g hg).2)]
  exact List.filter_eq_self.mpr (fun g hg => by simp [(hl g hg).1])

theorem compsOf_cons_slash (cs : List Char) : compsOf ('/' :: cs) = compsOf cs := by
  simp [compsOf, splitSlash]

theorem compsOf_dirname (p : String) (h2 : 2 ≤ (compsOf p.data).length) :
    compsOf (dirname p).data = (compsOf p.data).dropLast := by
  have hlen := List.length_dropLast (compsOf p.data)
  have hne : (compsOf p.data).dropLast ≠ [] := by
    intro h
    rw [h] at hlen
    simp at hlen
    omega
  have hmem : ∀ g ∈ (compsOf p.data).dropLast, g ≠ [] ∧ '/' ∉ g :=
    fun g hg => mem_compsOf p.data g (List.dropLast_subset _ hg)
  unfold dirname
  rw [if_neg (by omega : ¬ (compsOf p.data).length ≤ 1)]
  by_cases habs : isAbsolute p
  · rw [if_pos habs]
    show compsOf ('/' :: joinSlash (compsOf p.data).dropLast) = _
    rw [compsOf_cons_slash]
    exact compsOf_joinSlash _ hne hmem
  · rw [if_neg habs]
    show compsOf (joinSlash (compsOf p.data).dropLast) = _
    exact compsOf_joinSlash _ hne hmem

theorem dirname_root : dirname "/" = "/" := by decide

theorem dirname_dot : dirname "." = "." := by decide

theorem dirname_fixed_of_comps_le_one (p : String)
    (h1 : (compsOf p.data).length ≤ 1) : dirname (dirname p) = dirname p := by
  have hval : dirname p = if isAbsolute p then "/" else "." := by
    unfold dirname; rw [if_pos h1]
  rw [hval]
  by_cases habs : isAbsolute p
  · rw [if_pos habs]; exact dirname_root
  · rw [if_neg habs]; exact dirname_dot

theorem pathMeasure_dirname_lt (p : String) (h : dirname p ≠ p) :
    pathMeasure (dirname p) < pathMeasure p := by
  have hp : pathMeasure p = (compsOf p.data).length + 2 := by
    unfold pathMeasure; rw [if_neg h]
  rw [hp]
  by_cases h1 : (compsOf p.data).length ≤ 1
  · have hfix := dirname_fixed_of_comps_le_one p h1
    have : pathMeasure (dirname p) = 0 := by unfold pathMeasure; rw [if_pos hfix]
    omega
  · have h2 : 2 ≤ (compsOf p.data).length := by omega
    have hcomps := compsOf_dirname p h2
    have hlen : (compsOf (dirname p).data).length = (compsOf p.data).length - 1 := by
      rw [hcomps, List.length_dropLast]
    unfold pathMeasure
    split
    · omega
    · omega

/-! ## Lemmas about the ancestor walk -/

theorem findConfigFileGo_eq (fs : String → Bool) (cfg : String) :
    ∀ (n : Nat) (dir : String), pathMeasure dir < n →
      findConfigFileGo fs cfg n dir
        = some (((ancestorDirsGo n dir).map (fun d => joinPath d cfg)).find? fs) := by
  intro n
  induction n with
  | zero => intro dir h; exact absurd h (Nat.not_lt_zero _)
  | succ n ih =>
    intro dir h
    by_cases hfs : fs (joinPath dir cfg) = true
    · by_cases hfix : dirname dir = dir
      · simp [findConfigFileGo, ancestorDirsGo, hfix, hfs]
      · simp [findConfigFileGo, ancestorDirsGo, hfix, hfs]
    · by_cases hfix : dirname dir = dir
      · simp [findConfigFileGo, ancestorDirsGo, hfix, hfs]
      · have hlt : pathMeasure (dirname dir) < n := by
          have hd := pathMeasure_dirname_lt dir hfix
          omega
        simp only [findConfigFileGo, ancestorDirsGo, if_neg hfix]
        rw [if_neg hfs, ih (dirname dir) hlt]
        simp [hfs]

theorem ancestorDirsGo_eq (dir : String) :
    ∀ (n m : Nat), pathMeasure dir < n → pathMeasure dir < m →
      ancestorDirsGo n dir = ancestorDirsGo m dir := by
  suffices H : ∀ (n : Nat) (d : String) (m : Nat), pathMeasure d < n →
      pathMeasure d < m → ancestorDirsGo n d = ancestorDirsGo m d by
    intro n m hn hm; exact H n dir m hn hm
  intro n
  induction n with
  | zero => intro d m h _; exact absurd h (Nat.not_lt_zero _)
  | succ n ih =>
    intro d m hn hm
    cases m with
    | zero => exact absurd hm (Nat.not_lt_zero _)
    | succ m =>
      by_cases hfix : dirname d = d
      · simp [ancestorDirsGo, hfix]
      · have hd := pathMeasure_dirname_lt d hfix
        simp only [ancestorDirsGo, if_neg hfix]
        rw [ih (dirname d) m (by omega) (by omega)]

theorem ancestorDirsGo_exists_fixed (dir : String) :
    ∀ (n : Nat), pathMeasure dir < n →
      ∃ d ∈ ancestorDirsGo n dir, dirname d = d := by
  suffices H : ∀ (n : Nat) (d : String), pathMeasure d < n →
      ∃ r ∈ ancestorDirsGo n d, dirname r = r by
    intro n hn; exact H n dir hn
  intro n
  induction n with
  | zero => intro d h; exact absurd h (Nat.not_lt_zero _)
  | succ n ih =>
    intro d hn
    by_cases hfix : dirname d = d
    · exact ⟨d, by simp [ancestorDirsGo, hfix], hfix⟩
    · have hd := pathMeasure_dirname_lt d hfix
      obtain ⟨r, hr, hrfix⟩ := ih (dirname d) (by omega)
      exact ⟨r, by simp [ancestorDirsGo, hfix, hr], hrfix⟩

/-! ## Lemmas about the JavaScript object model -/

theorem jsOr_none_right (a : Option JSValue) : jsOr a none = a := by
  cases a <;> rfl

theorem jsOr_isSome (a b : Option JSValue) :
    ((jsOr a b).isSome = true) ↔ (a.isSome = true ∨ b.isSome = true) := by
  cases a <;> cases b <;> simp [jsOr]

theorem jsLookup_cons (e : String × JSValue) (l : JSObj) (k : String) :
    jsLookup (e :: l) k = if e.1 = k then some e.2 else jsLookup l k := by
  unfold jsLookup
  by_cases h : e.1 = k
  · simp [List.find?_cons, h]
  · simp [List.find?_cons, h]

theorem jsLookup_append (l₁ l₂ : JSObj) (k : String) :
    jsLookup (l₁ ++ l₂) k = jsOr (jsLookup l₁ k) (jsLookup l₂ k) := by
  induction l₁ with
  | nil => rfl
  | cons e l₁' ih =>
    rw [List.cons_append, jsLookup_cons, jsLookup_cons]
    by_cases h : e.1 = k
    · rw [if_pos h, if_pos h]; rfl
    · rw [if_neg h, if_neg h, ih]

theorem jsLookup_mapAssign (t s : JSObj) (k : String) :
    jsLookup (t.map (fun e => (e.1, (jsLookup s e.1).getD e.2))) k
      = (jsLookup t k).map (fun v => (jsLookup s k).getD v) := by
  induction t with
  | nil => rfl
  | cons e t' ih =>
    by_cases h : e.1 = k <;>
      simp [List.map_cons, jsLookup_cons, h, ih]

theorem jsLookup_filter_isNone (t s : JSObj) (k : String)
    (hk : jsLookup t k = none) :
    jsLookup (s.filter (fun e => (jsLookup t e.1).isNone)) k = jsLookup s k := by
  induction s with
  | nil => rfl
  | cons e s' ih =>
    by_cases h : e.1 = k
    · have hpred : (jsLookup t e.1).isNone = true := by rw [h, hk]; rfl
      simp [List.filter_cons, hpred, jsLookup_cons, h, hk]
    · cases hq : (jsLookup t e.1).isNone with
      | true => simp [List.filter_cons, hq, jsLookup_cons, h, ih]
      | false => simp [List.filter_cons, hq, jsLookup_cons, h, ih]

theorem jsLookup_objectAssign (t s : JSObj) (k : String) :
    jsLookup (objectAssign t s) k = jsOr (jsLookup s k) (jsLookup t k) := by
  unfold objectAssign
  rw [jsLookup_append, jsLookup_mapAssign]
  cases hfind : jsLookup t k with
  | some v =>
    cases hs : jsLookup s k with
    | some w => simp [jsOr, hs]
    | none => simp [jsOr, hs]
  | none =>
    rw [jsLookup_filter_isNone t s k hfind]
    cases hs : jsLookup s k with
    | some w => rfl
    | none => rfl

theorem objectAssign_nil (s : JSObj) : objectAssign [] s = s := by
  unfold objectAssign
  simp [jsLookup]

theorem mem_keys_iff_isSome (o : JSObj) (k : String) :
    k ∈ o.map Prod.fst ↔ (jsLookup o k).isSome = true := by
  induction o with
  | nil => simp [jsLookup]
  | cons e o' ih =>
    by_cases h : e.1 = k
    · simp [jsLookup_cons, h]
    · have h' : ¬ k = e.1 := fun hh => h hh.symm
      simp [jsLookup_cons, h, h', ih]

theorem isAbsolute_false_of_matchRelative (p : String)
    (h : matchRelativePattern p = true) : isAbsolute p = false := by
  unfold matchRelativePattern at h
  unfold isAbsolute
  split at h
  · rename_i heq; rw [heq]; rfl
  · rename_i heq; rw [heq]; rfl
  · rename_i heq; rw [heq]; rfl
  · rename_i heq; rw [heq]; rfl
  · exact absurd h (by simp)

/-- Claim C1: for a bare-name configuration reference (neither absolute nor
matching the relative pattern), the locator walks upward from the request
directory, testing `joinPath currentDir reference` at each level, and
returns the first (nearest-ancestor) joined path that exists; it returns
`none` exactly when no directory from the request directory up to and
including the filesystem root contains the file. -/
theorem findConfigFile_bareName_walk (fs : String → Bool) (dir cfg : String)
    (habs : isAbsolute cfg = false) (hrel : matchRelativePattern cfg = false) :
    findConfigFile fs dir cfg
      = ((ancestorDirs dir).map (fun d => joinPath d cfg)).find? fs ∧
    (findConfigFile fs dir cfg = none ↔
      ∀ d ∈ ancestorDirs dir, fs (joinPath d cfg) = false) := by
  have hbare : findConfigFile fs dir cfg
      = ((ancestorDirs dir).map (fun d => joinPath d cfg)).find? fs := by
    unfold findConfigFile
    rw [if_neg (by simp [habs]), if_neg (by simp [hrel]),
      findConfigFileGo_eq fs cfg (pathMeasure dir + 1) dir (Nat.lt_succ_self _)]
    rfl
  refine ⟨hbare, ?_⟩
  rw [hbare, List.find?_eq_none]
  constructor
  · intro h d hd
    have := h (joinPath d cfg) (List.mem_map.mpr ⟨d, hd, rfl⟩)
    simpa using this
  · intro h x hx
    obtain ⟨d, hd, rfl⟩ := List.mem_map.mp hx
    simp [h d hd]

/-- Witness for C1: on a concrete filesystem holding "/a/tsconfig.json",
the bare-name search from "/a/b/c" finds the nearest ancestor's copy. -/
theorem findConfigFile_bareName_walk_witness :
    findConfigFile exFs "/a/b/c" "tsconfig.json" = some "/a/tsconfig.json" := by
  have h := findConfigFile_bareName_walk exFs "/a/b/c" "tsconfig.json"
    (by decide) (by decide)
  exact h.1.trans (by decide)

/-- Claim C6: an absolute reference is returned iff the filesystem reports
it exists, and a reference matching the relative pattern is resolved
against the request directory and returned iff the resolved path exists; in
both cases the result depends on the filesystem only through that single
path (a single existence check, no directory walk), and non-existence
yields `none` rather than an exception. -/
theorem findConfigFile_explicit_reference (fs : String → Bool) (dir cfg : String) :
    (isAbsolute cfg = true →
      findConfigFile fs dir cfg = (if fs cfg = true then some cfg else none) ∧
      (∀ fs' : String → Bool, fs' cfg = fs cfg →
        findConfigFile fs' dir cfg = findConfigFile fs dir cfg)) ∧
    (matchRelativePattern cfg = true →
      findConfigFile fs dir cfg =
        (if fs (resolvePath dir cfg) = true
          then some (resolvePath dir cfg) else none) ∧
      (∀ fs' : String → Bool,
        fs' (resolvePath dir cfg) = fs (resolvePath dir cfg) →
        findConfigFile fs' dir cfg = findConfigFile fs dir cfg)) := by
  constructor
  · intro habs
    have heval : ∀ g : String → Bool,
        findConfigFile g dir cfg = (if g cfg = true then some cfg else none) := by
      intro g
      unfold findConfigFile
      rw [if_pos habs]
    refine ⟨heval fs, ?_⟩
    intro fs' hfs'
    rw [heval fs', heval fs, hfs']
  · intro hrel
    have habs := isAbsolute_false_of_matchRelative cfg hrel
    have heval : ∀ g : String → Bool,
        findConfigFile g dir cfg = (if g (resolvePath dir cfg) = true
          then some (resolvePath dir cfg) else none) := by
      intro g
      unfold findConfigFile
      rw [if_neg (by simp [habs]), if_pos hrel]
    refine ⟨heval fs, ?_⟩
    intro fs' hfs'
    rw [heval fs', heval fs, hfs']

/-- Witness for C6: a concrete existing absolute reference is returned
as-is, and a concrete "../"-style reference resolves against the request
directory. -/
theorem findConfigFile_explicit_reference_witness :
    findConfigFile exFs "/a/b" "/zz.json" = some "/zz.json" ∧
    findConfigFile exFs "/a/b" "../tsconfig.json" = some "/a/tsconfig.json" := by
  refine ⟨?_, ?_⟩
  · have h := (findConfigFile_explicit_reference exFs "/a/b" "/zz.json").1
      (by decide)
    exact h.1.trans (by decide)
  · have h := (findConfigFile_explicit_reference exFs "/a/b" "../tsconfig.json").2
      (by decide)
    exact h.1.trans (by decide)

/-- Claim C9: the ancestor walk terminates through the parent-equals-current
fixed-point check alone: with the structural fuel bound the loop always
exits via its own return or break (fuel is never exhausted), every larger
fuel yields the same outcome (the bound is no deadline), and the visited
directory chain reaches a `dirname` fixed point (the filesystem root). -/
theorem findConfigFile_walk_terminates (fs : String → Bool) (cfg dir : String) :
    (∃ r, findConfigFileGo fs cfg (pathMeasure dir + 1) dir = some r) ∧
    (∀ n, pathMeasure dir < n →
      findConfigFileGo fs cfg n dir
        = findConfigFileGo fs cfg (pathMeasure dir + 1) dir) ∧
    (∃ d ∈ ancestorDirs dir, dirname d = d) := by
  refine ⟨?_, ?_, ?_⟩
  · exact ⟨_, findConfigFileGo_eq fs cfg _ dir (Nat.lt_succ_self _)⟩
  · intro n hn
    rw [findConfigFileGo_eq fs cfg n dir hn,
      findConfigFileGo_eq fs cfg _ dir (Nat.lt_succ_self _),
      ancestorDirsGo_eq dir n _ hn (Nat.lt_succ_self _)]
  · exact ancestorDirsGo_exists_fixed dir _ (Nat.lt_succ_self _)

/-- Witness for C9: the walk from "/a/b" halts on the all-false
filesystem. -/
theorem findConfigFile_walk_terminates_witness :
    ∃ r, findConfigFileGo (fun _ => false) "tsconfig.json"
      (pathMeasure "/a/b" + 1) "/a/b" = some r :=
  (findConfigFile_walk_terminates (fun _ => false) "tsconfig.json" "/a/b").1

/-- Claim C3: the load error is set exactly when a config file was found
and its parse reported an error, and in that case the merge step does not
run: the returned config file is the raw parse result, its compiler options
unmerged, with caller options never applied on top of a failed parse. -/
theorem getConfigFile_parse_error_no_merge
    (fs : String → Bool) (readCfg : String → ConfigFile) (fmt : String → String)
    (res : String) (opts : LoaderOptions) (cc : Bool) (msg : String) :
    ((getConfigFile fs readCfg fmt res opts cc msg).1.configFileError.isSome = true ↔
      ∃ p, (getConfigFile fs readCfg fmt res opts cc msg).1.configFilePath = some p ∧
        (readCfg p).error.isSome = true) ∧
    (∀ p, (getConfigFile fs readCfg fmt res opts cc msg).1.configFilePath = some p →
      (readCfg p).error.isSome = true →
      (getConfigFile fs readCfg fmt res opts cc msg).1.configFile = readCfg p ∧
      (getConfigFile fs readCfg fmt res opts cc msg).1.configFile.config.compilerOptions
        = (readCfg p).config.compilerOptions) := by
  cases hf : findConfigFile fs (dirname res) opts.configFile with
  | none =>
    constructor
    · simp [getConfigFile, hf]
    · intro p hp
      simp [getConfigFile, hf] at hp
  | some q =>
    cases he : (readCfg q).error with
    | none =>
      constructor
      · simp [getConfigFile, hf, he]
      · intro p hp herr
        simp [getConfigFile, hf] at hp
        rw [← hp] at herr
        rw [he] at herr
        exact absurd herr (by simp)
    | some errv =>
      constructor
      · constructor
        · intro _
          exact ⟨q, by simp [getConfigFile, hf], by simp [he]⟩
        · intro _
          simp [getConfigFile, hf, he]
      · intro p hp herr
        constructor
        · simp [getConfigFile, hf] at hp
          rw [← hp]
          simp [getConfigFile, hf, he]
        · simp [getConfigFile, hf] at hp
          rw [← hp]
          simp [getConfigFile, hf, he]

/-- Witness for C3: with a found config file whose parse fails, the caller
option `y` is not merged and the raw file options survive unchanged. -/
theorem getConfigFile_parse_error_no_merge_witness :
    (getConfigFile (fun _ => true)
      (fun _ => ⟨⟨[("x", JSValue.num 9)], []⟩, some "bad"⟩) (fun e => e)
      "/proj/src/index.ts"
      ⟨"/c/tsconfig.json", [("y", JSValue.num 1)], [], []⟩
      true "details").1.configFile.config.compilerOptions
      = [("x", JSValue.num 9)] := by
  have h := (getConfigFile_parse_error_no_merge (fun _ => true)
    (fun _ => ⟨⟨[("x", JSValue.num 9)], []⟩, some "bad"⟩) (fun e => e)
    "/proj/src/index.ts"
    ⟨"/c/tsconfig.json", [("y", JSValue.num 1)], [], []⟩
    true "details").2 "/c/tsconfig.json" (by decide) (by decide)
  exact h.2

/-- Claim C2: when no load error occurred, the merged compiler options are
the caller-precedent shallow union of the file options and the caller
options: every key looks up to the caller's value when the caller has one
and to the file's value otherwise, the key set is the union of both key
sets, and in particular file options a=1, b=2 merged with caller options
b=3, c=4 give a=1, b=3, c=4. -/
theorem getConfigFile_merge_caller_precedence
    (fs : String → Bool) (readCfg : String → ConfigFile) (fmt : String → String)
    (res : String) (opts : LoaderOptions) (cc : Bool) (msg : String)
    (hne : (getConfigFile fs readCfg fmt res opts cc msg).1.configFileError = none) :
    (∀ k, jsLookup
        (getConfigFile fs readCfg fmt res opts cc msg).1.configFile.config.compilerOptions k
      = jsOr (jsLookup opts.compilerOptions k)
          (jsLookup (rawFileOptions readCfg
            (getConfigFile fs readCfg fmt res opts cc msg).1.configFilePath) k)) ∧
    (∀ k, k ∈ ((getConfigFile fs readCfg fmt res opts cc msg).1.configFile.config.compilerOptions).map Prod.fst ↔
      (k ∈ (rawFileOptions readCfg
          (getConfigFile fs readCfg fmt res opts cc msg).1.configFilePath).map Prod.fst
        ∨ k ∈ opts.compilerOptions.map Prod.fst)) ∧
    objectAssign (objectAssign [] [("a", JSValue.num 1), ("b", JSValue.num 2)])
        [("b", JSValue.num 3), ("c", JSValue.num 4)]
      = [("a", JSValue.num 1), ("b", JSValue.num 3), ("c", JSValue.num 4)] := by
  have hkeys : ∀ (F C : JSObj) (k : String),
      k ∈ (objectAssign (objectAssign [] F) C).map Prod.fst ↔
        (k ∈ F.map Prod.fst ∨ k ∈ C.map Prod.fst) := by
    intro F C k
    rw [mem_keys_iff_isSome, objectAssign_nil, jsLookup_objectAssign, jsOr_isSome,
      mem_keys_iff_isSome, mem_keys_iff_isSome]
    exact Or.comm
  have hmerged : (getConfigFile fs readCfg fmt res opts cc msg).1.configFile.config.compilerOptions
      = objectAssign (objectAssign [] (rawFileOptions readCfg
          (getConfigFile fs readCfg fmt res opts cc msg).1.configFilePath))
        opts.compilerOptions := by
    cases hf : findConfigFile fs (dirname res) opts.configFile with
    | none => simp [getConfigFile, hf, rawFileOptions]
    | some q =>
      cases he : (readCfg q).error with
      | none => simp [getConfigFile, hf, he, rawFileOptions]
      | some errv => simp [getConfigFile, hf, he] at hne
  refine ⟨?_, ?_, by decide⟩
  · intro k
    rw [hmerged, objectAssign_nil, jsLookup_objectAssign]
  · intro k
    rw [hmerged]
    exact hkeys _ opts.compilerOptions k

/-- Witness for C2: the caller-precedent merge at the concrete example
mappings of the claim. -/
theorem getConfigFile_merge_caller_precedence_witness :
    objectAssign (objectAssign [] [("a", JSValue.num 1), ("b", JSValue.num 2)])
        [("b", JSValue.num 3), ("c", JSValue.num 4)]
      = [("a", JSValue.num 1), ("b", JSValue.num 3), ("c", JSValue.num 4)] :=
  (getConfigFile_merge_caller_precedence (fun _ => true)
    (fun _ => ⟨⟨[("a", JSValue.num 1), ("b", JSValue.num 2)], []⟩, none⟩) (fun e => e)
    "/proj/src/index.ts"
    ⟨"/c/tsconfig.json", [("b", JSValue.num 3), ("c", JSValue.num 4)], [], []⟩
    true "details" (by decide)).2.2

/-- Claim C8 (amended): the number of informational log messages emitted by
one `getConfigFile` invocation is one when a config file was found or the
compiler is compatible, and zero when no file was found and the compiler is
not compatible; it is never more than one, and the merge step logs
nothing. -/
theorem getConfigFile_log_count
    (fs : String → Bool) (readCfg : String → ConfigFile) (fmt : String → String)
    (res : String) (opts : LoaderOptions) (cc : Bool) (msg : String) :
    ((getConfigFile fs readCfg fmt res opts cc msg).2).length
      = (if (findConfigFile fs (dirname res) opts.configFile).isSome = true ∨ cc = true
        then 1 else 0) ∧
    ((getConfigFile fs readCfg fmt res opts cc msg).2).length ≤ 1 := by
  cases hf : findConfigFile fs (dirname res) opts.configFile with
  | none => cases cc <;> simp [getConfigFile, hf]
  | some q => cases cc <;> simp [getConfigFile, hf]

/-- Counterexample for C8 as stated: when no config file is found and the
compiler is not compatible, the invocation emits no log message at all, so
"exactly one log message per invocation" fails. -/
theorem getConfigFile_log_count_counterexample :
    ((getConfigFile (fun _ => false) (fun _ => ⟨⟨[], []⟩, none⟩) (fun e => e)
      "/proj/src/index.ts" ⟨"/nope/tsconfig.json", [], [], []⟩
      false "details").2).length ≠ 1 := by decide

theorem foldl_cond_append {α β : Type} (step : List α → β → List α)
    (g : β → Option α) (hstep : ∀ acc x, step acc x = acc ++ (g x).toList) :
    ∀ (l : List β) (acc : List α), l.foldl step acc = acc ++ l.filterMap g := by
  intro l
  induction l with
  | nil => intro acc; simp
  | cons x l' ih =>
    intro acc
    rw [List.foldl_cons, hstep, ih, List.filterMap_cons]
    cases g x <;> simp

/-- Claim C4: with at least one rewrite rule active, `readDirectory` first
takes a bare listing from the base system, collects the real extension of
every file whose rewrite changes its name to a synthetic name whose
extension is requested, issues a second base call with the combined
extension set, and maps every result through the rewrite transform — so the
base listing's order is preserved and nothing is deduplicated; in
particular, with the ".vue" to ".vue.ts" rule and requested extensions
[".ts"], a directory holding "a.vue" and "b.ts" lists as
["a.vue.ts", "b.ts"]. -/
theorem readDirectory_two_pass (sys : TSSystem) (opts : LoaderOptions)
    (rootDir : String) (extensions : List String)
    (h : opts.appendTsSuffixTo ≠ [] ∨ opts.appendTsxSuffixTo ≠ []) :
    (getSuffixAppendingParseConfigHost sys opts).readDirectory rootDir extensions
      = (sys.readDirectory rootDir
          (some (extensions ++ customExtensionsSpec sys opts rootDir extensions))).map
        (fun rawFileName => getPossiblyRenamedFilePath rawFileName opts) ∧
    (getSuffixAppendingParseConfigHost exSys exOpts).readDirectory "/proj" [".ts"]
      = ["a.vue.ts", "b.ts"] := by
  refine ⟨?_, by decide⟩
  have hcond : ¬ (opts.appendTsSuffixTo.length = 0 ∧
      opts.appendTsxSuffixTo.length = 0) := by
    rcases h with h1 | h1
    · intro hc
      exact h1 (List.length_eq_zero.mp hc.1)
    · intro hc
      exact h1 (List.length_eq_zero.mp hc.2)
  simp only [getSuffixAppendingParseConfigHost, if_neg hcond]
  have hfold := foldl_cond_append
    (fun (exts : List String) (fileName : String) =>
      if getPossiblyRenamedFilePath fileName opts ≠ fileName ∧
          toLowerStr (extname (getPossiblyRenamedFilePath fileName opts)) ∈ extensions then
        if toLowerStr (extname fileName) ≠ ""
          then exts ++ [toLowerStr (extname fileName)] else exts
      else exts)
    (fun fileName =>
      if getPossiblyRenamedFilePath fileName opts ≠ fileName ∧
          toLowerStr (extname (getPossiblyRenamedFilePath fileName opts)) ∈ extensions ∧
          toLowerStr (extname fileName) ≠ "" then
        some (toLowerStr (extname fileName))
      else none)
    (by
      intro acc x
      by_cases h1 : getPossiblyRenamedFilePath x opts ≠ x ∧
          toLowerStr (extname (getPossiblyRenamedFilePath x opts)) ∈ extensions
      · by_cases h2 : toLowerStr (extname x) ≠ ""
        · simp [h1, h2, h1.1, h1.2]
        · simp [h1, h2, h1.1, h1.2]
      · have hg : ¬ (getPossiblyRenamedFilePath x opts ≠ x ∧
            toLowerStr (extname (getPossiblyRenamedFilePath x opts)) ∈ extensions ∧
            toLowerStr (extname x) ≠ "") := by
          intro hc
          exact h1 ⟨hc.1, hc.2.1⟩
        simp [h1, hg])
    (sys.readDirectory rootDir none) []
  rw [hfold]
  rfl

/-- Witness for C4: the two-pass listing at the concrete ".vue" example. -/
theorem readDirectory_two_pass_witness :
    (getSuffixAppendingParseConfigHost exSys exOpts).readDirectory "/proj" [".ts"]
      = ["a.vue.ts", "b.ts"] :=
  (readDirectory_two_pass exSys exOpts "/proj" [".ts"]
    (Or.inl (by decide))).2

/-- Claim C5: with no extension-rewrite rules configured, the wrapper is
the identity: the returned parse-config host is the base system itself
(viewed as a host), so every member delegates unchanged with no extra
interception. -/
theorem getSuffixAppendingParseConfigHost_noRules (sys : TSSystem)
    (opts : LoaderOptions) (h1 : opts.appendTsSuffixTo = [])
    (h2 : opts.appendTsxSuffixTo = []) :
    getSuffixAppendingParseConfigHost sys opts = sys.toParseConfigHost ∧
    (∀ p, (getSuffixAppendingParseConfigHost sys opts).fileExists p
      = sys.fileExists p) ∧
    (∀ p, (getSuffixAppendingParseConfigHost sys opts).readFile p
      = sys.readFile p) ∧
    (∀ rootDir extensions,
      (getSuffixAppendingParseConfigHost sys opts).readDirectory rootDir extensions
        = sys.readDirectory rootDir (some extensions)) ∧
    (getSuffixAppendingParseConfigHost sys opts).useCaseSensitiveFileNames
      = sys.useCaseSensitiveFileNames := by
  have hcond : opts.appendTsSuffixTo.length = 0 ∧
      opts.appendTsxSuffixTo.length = 0 := by simp [h1, h2]
  have hmain : getSuffixAppendingParseConfigHost sys opts = sys.toParseConfigHost := by
    unfold getSuffixAppendingParseConfigHost
    rw [if_pos hcond]
  exact ⟨hmain, fun p => by rw [hmain]; rfl, fun p => by rw [hmain]; rfl,
    fun rootDir extensions => by rw [hmain]; rfl, by rw [hmain]; rfl⟩

/-- Witness for C5: the concrete system is returned unwrapped when both
rule lists are empty. -/
theorem getSuffixAppendingParseConfigHost_noRules_witness :
    getSuffixAppendingParseConfigHost exSys
      ⟨"tsconfig.json", [], [], []⟩ = exSys.toParseConfigHost :=
  (getSuffixAppendingParseConfigHost_noRules exSys
    ⟨"tsconfig.json", [], [], []⟩ rfl rfl).1

/-- Claim C7: at host compiler version 3.5.0 or above, the parsed options
are stamped with the `configFilePath` provenance key (other keys and the
file list unchanged); below the threshold the parse result is returned
entirely unchanged and the key is never added. -/
theorem getConfigParseResult_version_gate (v : SemVer)
    (parse : TsConfig → ParseConfigHost → String → ParsedCommandLine)
    (sys : TSSystem) (cf : ConfigFile) (basePath : String)
    (cfp : Option String) (opts : LoaderOptions) :
    (semverGte v ⟨3, 5, 0⟩ = true →
      jsLookup (getConfigParseResult v parse sys cf basePath cfp opts).options
          "configFilePath" = some (jsOfPath cfp) ∧
      (∀ k, k ≠ "configFilePath" →
        jsLookup (getConfigParseResult v parse sys cf basePath cfp opts).options k
          = jsLookup (parse cf.config
              (getSuffixAppendingParseConfigHost sys opts) basePath).options k) ∧
      (getConfigParseResult v parse sys cf basePath cfp opts).fileNames
        = (parse cf.config
            (getSuffixAppendingParseConfigHost sys opts) basePath).fileNames) ∧
    (semverGte v ⟨3, 5, 0⟩ = false →
      getConfigParseResult v parse sys cf basePath cfp opts
        = parse cf.config (getSuffixAppendingParseConfigHost sys opts) basePath) := by
  constructor
  · intro hv
    have hopt : (getConfigParseResult v parse sys cf basePath cfp opts).options
        = objectAssign (objectAssign []
            (parse cf.config (getSuffixAppendingParseConfigHost sys opts) basePath).options)
          [("configFilePath", jsOfPath cfp)] := by
      unfold getConfigParseResult
      rw [if_pos hv]
    refine ⟨?_, ?_, ?_⟩
    · rw [hopt, jsLookup_objectAssign, jsLookup_cons, if_pos rfl]
      rfl
    · intro k hk
      rw [hopt, jsLookup_objectAssign, objectAssign_nil, jsLookup_cons,
        if_neg (fun hh => hk hh.symm)]
      rfl
    · unfold getConfigParseResult
      rw [if_pos hv]
  · intro hv
    unfold getConfigParseResult
    rw [if_neg (by simp [hv])]

/-- Witness for C7: at version 3.5.0 exactly, the stamped options carry the
resolved config path. -/
theorem getConfigParseResult_version_gate_witness :
    jsLookup (getConfigParseResult ⟨3, 5, 0⟩
      (fun c _ _ => ⟨[("strict", JSValue.num 1)], c.files⟩) exSys
      ⟨⟨[], []⟩, none⟩ "/proj" (some "/proj/tsconfig.json") exOpts).options
      "configFilePath" = some (JSValue.str "/proj/tsconfig.json") :=
  ((getConfigParseResult_version_gate ⟨3, 5, 0⟩
    (fun c _ _ => ⟨[("strict", JSValue.num 1)], c.files⟩) exSys
    ⟨⟨[], []⟩, none⟩ "/proj" (some "/proj/tsconfig.json") exOpts).1 (by decide)).1

/-- Claim C10: at or above the threshold version the provenance key is
added unconditionally: even when no config file was located, the
`configFilePath` key is present on the options with the explicit
`undefined` value rather than being omitted. -/
theorem getConfigParseResult_provenance_key_always (v : SemVer)
    (parse : TsConfig → ParseConfigHost → String → ParsedCommandLine)
    (sys : TSSystem) (cf : ConfigFile) (basePath : String)
    (opts : LoaderOptions) (hv : semverGte v ⟨3, 5, 0⟩ = true) :
    jsLookup (getConfigParseResult v parse sys cf basePath none opts).options
      "configFilePath" = some JSValue.undef ∧
    "configFilePath" ∈
      ((getConfigParseResult v parse sys cf basePath none opts).options).map Prod.fst := by
  have hopt : (getConfigParseResult v parse sys cf basePath none opts).options
      = objectAssign (objectAssign []
          (parse cf.config (getSuffixAppendingParseConfigHost sys opts) basePath).options)
        [("configFilePath", jsOfPath none)] := by
    unfold getConfigParseResult
    rw [if_pos hv]
  have hlook : jsLookup (getConfigParseResult v parse sys cf basePath none opts).options
      "configFilePath" = some JSValue.undef := by
    rw [hopt, jsLookup_objectAssign, jsLookup_cons, if_pos rfl]
    rfl
  exact ⟨hlook, (mem_keys_iff_isSome _ _).mpr (by rw [hlook]; rfl)⟩

/-- Witness for C10: above the threshold with no located config file, the
options carry the key with the `undefined` value. -/
theorem getConfigParseResult_provenance_key_always_witness :
    jsLookup (getConfigParseResult ⟨3, 6, 2⟩
      (fun c _ _ => ⟨[], c.files⟩) exSys ⟨⟨[], []⟩, none⟩ "/proj" none exOpts).options
      "configFilePath" = some JSValue.undef :=
  (getConfigParseResult_provenance_key_always ⟨3, 6, 2⟩
    (fun c _ _ => ⟨[], c.files⟩) exSys ⟨⟨[], []⟩, none⟩ "/proj" exOpts (by decide)).1

end TsLoaderConfig
